import Mathlib

/-!
# 2code: filtered directory tree printer and content logger

A shallow embedding of `src/main.cpp`.

* Paths are strings in POSIX generic format; the three operations of
  `std::filesystem::path` the program relies on (`filename()`, `extension()`,
  `operator/`) are given on strings.
* The file system below the root is a finite tree of directory entries
  (`Entry`): directories that can be opened, directories that cannot, regular
  files (with their contents, when they can be opened) and entries of any other
  kind.  Directories reached through a symbolic link are not part of the model.
* Console and file output are the strings written to the stream, together with
  whether the traversal ended by the exception of a directory that cannot be
  opened.
* Values of type `int` are integers reduced to 32 bits in two's complement.
-/

namespace TwoCode

/-! ## Static configuration (main.cpp 17-33) -/

/-- Folder names to ignore (main.cpp 17-23). -/
def ignoredFolders : List String := [".cache", "build", "CMakeFiles", "contents", ".git"]

/-- File names to ignore (main.cpp 25-27). -/
def ignoredFiles : List String := ["CMakeCXXCompilerId.cpp"]

/-- Allowed file extensions (main.cpp 30-33). -/
def allowedExtensions : List String := [".cpp", ".h"]

/-! ## The parts of `std::filesystem::path` used by the program -/

/-- Model of `fs::path::filename()` on a POSIX path: the characters after the
last directory separator (empty when the path ends in a separator). -/
def filename (p : String) : String :=
  String.mk (p.toList.reverse.takeWhile (fun c => c != '/')).reverse

/-- Model of `fs::path::extension()`: empty when the filename is `.` or `..`,
when it has no dot, or when its last dot is its first character; otherwise the
part of the filename from its last dot on, the dot included. -/
def extension (p : String) : String :=
  let f := (filename p).toList
  let suffix := '.' :: (f.reverse.takeWhile (fun c => c != '.')).reverse
  if f = ['.'] ∨ f = ['.', '.'] then ""
  else if '.' ∈ f ∧ suffix.length < f.length then String.mk suffix
  else ""

/-- Model of `fs::path::operator/` on POSIX paths: an absolute right operand
replaces the left one; otherwise a separator is inserted unless the left
operand has no filename (is empty or already ends in a separator). -/
def append (p q : String) : String :=
  if q.toList.head? = some '/' then q
  else if filename p = "" then p ++ q
  else p ++ "/" ++ q

/-- Model of `operator<<(std::ostream&, const fs::path&)`, which writes
`std::quoted(p.string())`: the text between double quotes, every double quote
and backslash in it preceded by a backslash. -/
def quoted (s : String) : String :=
  "\"" ++ String.mk (s.toList.flatMap fun c => if c = '"' ∨ c = '\\' then ['\\', c] else [c])
    ++ "\""

/-! ## Filter predicates (main.cpp 36-63)

The comparisons `path == std::string` compare a single path component with a
name free of separators, which is equality of the two strings. -/

/-- Embedding of `shouldIgnoreFolder` (main.cpp 36-43). -/
def shouldIgnoreFolder (folder : String) : Bool :=
  ignoredFolders.any fun ignored => filename folder == ignored

/-- Embedding of `shouldIgnoreFile` (main.cpp 46-53). -/
def shouldIgnoreFile (file : String) : Bool :=
  ignoredFiles.any fun ignored => filename file == ignored

/-- Embedding of `hasAllowedExtension` (main.cpp 56-63). -/
def hasAllowedExtension (file : String) : Bool :=
  allowedExtensions.any fun ext => extension file == ext

/-! ## Machine integers -/

/-- Largest value of `int`. -/
def INT_MAX : Int := 2147483647

/-- Smallest value of `int`. -/
def INT_MIN : Int := -2147483648

/-- The `int` an arithmetic result is stored as: the value reduced modulo
`2^32` into the range from `INT_MIN` to `INT_MAX` (signed overflow, undefined
in C++, is taken as the wrap-around of two's complement). -/
def toInt32 (x : Int) : Int := (x + 2147483648) % 4294967296 - 2147483648

/-! ## Directory trees -/

/-- A directory entry as the iterators report it: its name, and for a directory
that can be opened its own entries in enumeration order, for a regular file its
contents when the file can be opened for reading (`none` when it cannot).
`unreadable` is a directory that a directory iterator cannot open (permission
denied); `other` stands for every entry that is neither a directory nor a
regular file (socket, FIFO, device, dangling symbolic link). -/
inductive Entry where
  | directory (name : String) (entries : List Entry)
  | unreadable (name : String)
  | regular (name : String) (contents : Option String)
  | other (name : String)

/-- The name of the entry inside its directory. -/
def Entry.name : Entry → String
  | .directory n _ => n
  | .unreadable n => n
  | .regular n _ => n
  | .other n => n

/-- Model of `entry.is_directory()`. -/
def Entry.isDirectory : Entry → Bool
  | .directory _ _ => true
  | .unreadable _ => true
  | _ => false

/-- Model of `entry.is_regular_file()`. -/
def Entry.isRegularFile : Entry → Bool
  | .regular _ _ => true
  | _ => false

/-- What `std::ifstream file(entry.path())` can read: `none` when
`file.is_open()` is false. -/
def Entry.contents : Entry → Option String
  | .regular _ c => c
  | _ => none

/-- What a traversal leaves behind: the text it has written to its stream, and
whether it ended by the `fs::filesystem_error` that a directory iterator throws
for a directory it cannot open.  Nothing in the program catches that
exception. -/
structure Outcome where
  text : String
  thrown : Bool
  deriving DecidableEq

/-- Sequencing: what follows runs only when nothing was thrown before. -/
def Outcome.andThen (a b : Outcome) : Outcome :=
  if a.thrown then a else ⟨a.text ++ b.text, b.thrown⟩

/-! ## Tree Printer (main.cpp 67-91) -/

/-- The loop `for (int i = 0; i < indent; i++) std::cout << "-";`. -/
def dashes (indent : Int) : String := String.mk (List.replicate indent.toNat '-')

mutual
/-- One iteration of the loop of `printDirTree` (main.cpp 69-89), for the entry
`e` of the directory `path`.  An iteration ended by `continue` writes nothing.
For a directory the recursive call receives `indent + 2` as an `int`; when the
directory cannot be opened, the `fs::directory_iterator` of the recursive call
throws after the directory's own line has been written. -/
def printEntry : String → Int → Entry → Outcome
  | path, indent, e =>
    let p := append path e.name
    if e.isDirectory && shouldIgnoreFolder p then ⟨"", false⟩
    else if e.isRegularFile && (shouldIgnoreFile p || !hasAllowedExtension p) then ⟨"", false⟩
    else
      match e with
      | .directory _ entries =>
        Outcome.andThen ⟨dashes indent ++ " + " ++ quoted (filename p) ++ "\n", false⟩
          (printDirTree p (toInt32 (indent + 2)) entries)
      | .unreadable _ => ⟨dashes indent ++ " + " ++ quoted (filename p) ++ "\n", true⟩
      | .regular _ _ => ⟨dashes indent ++ " | " ++ quoted (filename p) ++ "\n", false⟩
      | .other _ => ⟨dashes indent, false⟩
/-- Embedding of `printDirTree(path, indent)` (main.cpp 67-91): the text written
to the console, `entries` being what `fs::directory_iterator(path)`
enumerates. -/
def printDirTree : String → Int → List Entry → Outcome
  | _, _, [] => ⟨"", false⟩
  | path, indent, e :: rest =>
    (printEntry path indent e).andThen (printDirTree path indent rest)
end

/-! ## Content Logger (main.cpp 106-147) -/

/-- The entries a recursive iteration has reported, and whether it ended by the
exception of a directory that cannot be opened. -/
structure Walk where
  visited : List (String × Entry)
  thrown : Bool

/-- Sequencing of two stretches of an iteration. -/
def Walk.andThen (a b : Walk) : Walk :=
  if a.thrown then a else ⟨a.visited ++ b.visited, b.thrown⟩

mutual
/-- An entry followed by everything below it, as
`fs::recursive_directory_iterator` reports them: the entry first, then, when it
is a directory, the entries beneath it.  The loop of `logFileContents` never
calls `disable_recursion_pending()`, so every directory is entered, and the
increment throws at a directory that cannot be opened. -/
def entryAndBelow : String → Entry → Walk
  | path, .directory name entries =>
    Walk.andThen ⟨[(append path name, .directory name entries)], false⟩
      (recursiveEntries (append path name) entries)
  | path, .unreadable name => ⟨[(append path name, .unreadable name)], true⟩
  | path, .regular name contents => ⟨[(append path name, .regular name contents)], false⟩
  | path, .other name => ⟨[(append path name, .other name)], false⟩
/-- Model of `fs::recursive_directory_iterator(path)`: every entry beneath
`path` with its path, depth first, in enumeration order. -/
def recursiveEntries : String → List Entry → Walk
  | _, [] => ⟨[], false⟩
  | path, e :: rest => (entryAndBelow path e).andThen (recursiveEntries path rest)
end

/-- One iteration of the loop of `logFileContents` (main.cpp 122-142) for the
entry `e` whose path is `p`: the text written to the output file. -/
def logEntry (p : String) (e : Entry) : String :=
  if e.isDirectory && shouldIgnoreFolder p then ""
  else if e.isRegularFile && (shouldIgnoreFile p || !hasAllowedExtension p) then ""
  else if e.isRegularFile && hasAllowedExtension p then
    match e.contents with
    | some contents => "File: " ++ quoted (filename p) ++ "\n" ++ contents ++ "\n\n"
    | none => ""
  else ""

/-- Embedding of the loop of `logFileContents(path, outputFolder)` (main.cpp
121-143): the text written to the output stream once the output file has been
opened, `entries` being the tree beneath `path` as the iterator finds it. -/
def logFileContents (path : String) (entries : List Entry) : Outcome :=
  ⟨String.join ((recursiveEntries path entries).visited.map fun pe => logEntry pe.1 pe.2),
    (recursiveEntries path entries).thrown⟩

/-! ## Menu loop (main.cpp 150-209)

`main` is a machine that stops before each statement of the loop at which the
flag matters, driven by three kinds of event: `main` executes its next
statement, the pending extraction `std::cin >> command` returns, or the
interrupt signal is delivered and `signalHandler` runs.  The handler can run
between any two statements: between the test of the loop head (line 181) and
`displayMenu()`, while the extraction is pending, between the extraction and
the test of line 187, between that test and the `switch` (line 190), and
between the end of the loop and the farewell.  The command selected by the
`switch` is a single action. -/

/-- What `main` and the handler do that can be observed. -/
inductive Action where
  /-- The call of `displayMenu()` (line 182) -/
  | displayMenu
  /-- Branch `case 1`: the Tree Printer is invoked (lines 195-196) -/
  | printDirTree
  /-- Branch `case 2`: the Content Logger is invoked (lines 199-200) -/
  | logFileContents
  /-- Branch `default`: the invalid-option message (line 203) -/
  | invalidOption
  /-- The message after the loop (line 207) -/
  | farewell
  /-- The message of `signalHandler` (lines 151-152) -/
  | signalNotice
  deriving DecidableEq

/-- Where `main` stands: the statement it executes next. -/
inductive Pc where
  /-- The test `while (!shutdown)` (line 181) -/
  | loopTest
  /-- The call `displayMenu()` (line 182), the loop test having passed -/
  | menu
  /-- The extraction `std::cin >> command` (line 185), which is pending -/
  | reading
  /-- The test `if (shutdown)` (line 187), `command` holding this value -/
  | afterRead (command : Int)
  /-- The `switch (command)` (line 190), the test of line 187 having passed -/
  | dispatching (command : Int)
  /-- The farewell message (line 207), the loop having ended -/
  | afterLoop
  /-- Nothing: `main` has returned -/
  | exited
  deriving DecidableEq

/-- The state of the menu loop: the global flag `shutdown`, whether `std::cin`
is in a failed state, the position of `main`, and the actions performed so
far, oldest first. -/
structure MenuState where
  shutdown : Bool
  streamFailed : Bool
  pc : Pc
  trace : List Action
  deriving DecidableEq

/-- What the user typed at the prompt. -/
inductive Input where
  /-- A decimal integer of this value -/
  | integer (value : Int)
  /-- Text that does not start with a decimal integer -/
  | nonInteger
  /-- Nothing: the input has ended -/
  | endOfInput

/-- The effect of one extraction: the value stored in `command`, if any, and
whether the stream is in a failed state afterwards. -/
structure Extraction where
  stored : Option Int
  failed : Bool
  deriving DecidableEq

/-- Model of `std::cin >> command` (C++11): on a stream that has already
failed, and at the end of the input, nothing is read and nothing is stored; an
integer is stored, clamped to the range of `int`, the stream failing when it
was out of range; when the text is not an integer, zero is stored and the
stream fails.  The program never clears the failed state. -/
def extract (failed : Bool) (typed : Input) : Extraction :=
  if failed then ⟨none, true⟩
  else
    match typed with
    | .integer value =>
      if value < INT_MIN then ⟨some INT_MIN, true⟩
      else if INT_MAX < value then ⟨some INT_MAX, true⟩
      else ⟨some value, false⟩
    | .nonInteger => ⟨some 0, true⟩
    | .endOfInput => ⟨none, true⟩

/-- What can happen next. -/
inductive Event where
  /-- The interrupt signal is delivered and `signalHandler` runs -/
  | signal
  /-- The program executes its next statement -/
  | advance
  /-- The pending extraction returns for this input; `garbage` is the value the
  uninitialised `int command;` holds when the extraction stores nothing -/
  | input (typed : Input) (garbage : Int)

/-- What the `switch` of lines 190-204 does for a value of `command`. -/
def switchActions (command : Int) : List Action :=
  if command = 0 then []
  else if command = 1 then [Action.printDirTree]
  else if command = 2 then [Action.logFileContents]
  else [Action.invalidOption]

/-- One step of the menu loop. -/
def step (s : MenuState) : Event → MenuState
  | .signal =>
    match s.pc with
    | .exited => s
    | _ => { s with shutdown := true, trace := s.trace ++ [Action.signalNotice] }
  | .advance =>
    match s.pc with
    | .loopTest => if s.shutdown then { s with pc := .afterLoop } else { s with pc := .menu }
    | .menu => { s with pc := .reading, trace := s.trace ++ [Action.displayMenu] }
    | .reading => s
    | .afterRead command =>
      if s.shutdown then { s with pc := .afterLoop } else { s with pc := .dispatching command }
    | .dispatching command =>
      { s with shutdown := s.shutdown || decide (command = 0), pc := .loopTest,
               trace := s.trace ++ switchActions command }
    | .afterLoop => { s with pc := .exited, trace := s.trace ++ [Action.farewell] }
    | .exited => s
  | .input typed garbage =>
    match s.pc with
    | .reading =>
      { s with streamFailed := (extract s.streamFailed typed).failed,
               pc := .afterRead ((extract s.streamFailed typed).stored.getD garbage) }
    | _ => s

/-- The state after a sequence of events. -/
def run (s : MenuState) (events : List Event) : MenuState := events.foldl step s

/-- The state in which `main` enters the loop. -/
def initial : MenuState := ⟨false, false, Pc.loopTest, []⟩

/-- One whole iteration of the loop from its head, without any signal: the
loop test, the menu, the extraction of what the user typed, the test of the
flag, the `switch`. -/
def iteration (s : MenuState) (typed : Input) (garbage : Int) : MenuState :=
  run s [Event.advance, Event.advance, Event.input typed garbage, Event.advance, Event.advance]

/-! ## Notions used to state the properties -/

/-- The suffix of the final path component that starts at its last dot, the dot
included; empty when the component has no dot.  This is the reading of
"extension" that ignores the special cases of `fs::path::extension()`. -/
def lastDotSuffix (p : String) : String :=
  let f := (filename p).toList
  if '.' ∈ f then String.mk ('.' :: (f.reverse.takeWhile (fun c => c != '.')).reverse)
  else ""

/-- A name as a directory holds it: it contains no directory separator. -/
def validName (name : String) : Bool := !name.toList.contains '/'

mutual
/-- Every name in the entry and beneath it is free of separators. -/
def Entry.validNames : Entry → Bool
  | .directory name entries => validName name && validNames entries
  | .unreadable name => validName name
  | .regular name _ => validName name
  | .other name => validName name
/-- Every name in the tree is free of separators. -/
def validNames : List Entry → Bool
  | [] => true
  | e :: rest => e.validNames && validNames rest
end

mutual
/-- The entry with the ignored directories beneath it removed. -/
def Entry.pruned : Entry → Entry
  | .directory name entries => .directory name (pruneIgnored entries)
  | .unreadable name => .unreadable name
  | .regular name contents => .regular name contents
  | .other name => .other name
/-- The tree without its ignored directories: every directory whose name is in
the ignored set is removed together with everything beneath it, at every
level. -/
def pruneIgnored : List Entry → List Entry
  | [] => []
  | e :: rest =>
    if e.isDirectory ∧ e.name ∈ ignoredFolders then pruneIgnored rest
    else e.pruned :: pruneIgnored rest
end

mutual
/-- The entry and everything beneath it is a directory that can be opened or a
regular file. -/
def Entry.onlyDirsAndFiles : Entry → Bool
  | .directory _ entries => onlyDirsAndFiles entries
  | .unreadable _ => false
  | .regular _ _ => true
  | .other _ => false
/-- Every entry of the tree is a directory that can be opened or a regular
file. -/
def onlyDirsAndFiles : List Entry → Bool
  | [] => true
  | e :: rest => e.onlyDirsAndFiles && onlyDirsAndFiles rest
end

mutual
/-- How many directories the printer enters one inside the other, from this
entry down: an ignored directory is not entered. -/
def Entry.nesting : Entry → Nat
  | .directory name entries => if name ∈ ignoredFolders then 0 else 1 + nesting entries
  | .unreadable _ => 0
  | .regular _ _ => 0
  | .other _ => 0
/-- The deepest chain of directories the printer enters below a listing. -/
def nesting : List Entry → Nat
  | [] => 0
  | e :: rest => max e.nesting (nesting rest)
end

/-- A line of the printed tree: how many directories lie between the root and
the entry, whether the entry is a directory, and its name. -/
structure TreeLine where
  depth : Nat
  isDirectory : Bool
  name : String

/-- The text of a line when the printer was started with `indent` dashes:
`indent + 2 * depth` dashes, the marker, the quoted name, a line ending. -/
def TreeLine.text (indent : Nat) (l : TreeLine) : String :=
  String.mk (List.replicate (indent + 2 * l.depth) '-') ++
    (if l.isDirectory then " + " else " | ") ++ quoted l.name ++ "\n"

mutual
/-- The lines of an entry at depth `d`: none for an ignored directory, an
ignored file or a file whose extension is not allowed; otherwise its own line,
followed for a directory by the lines of its entries one level deeper. -/
def Entry.treeLines : Nat → Entry → List TreeLine
  | d, .directory name entries =>
    if name ∈ ignoredFolders then []
    else ⟨d, true, name⟩ :: treeLines (d + 1) entries
  | d, .unreadable name => if name ∈ ignoredFolders then [] else [⟨d, true, name⟩]
  | d, .regular name _ =>
    if name ∈ ignoredFiles ∨ extension name ∉ allowedExtensions then []
    else [⟨d, false, name⟩]
  | _, .other _ => []
/-- The lines of a directory listing at depth `d`, in enumeration order. -/
def treeLines : Nat → List Entry → List TreeLine
  | _, [] => []
  | d, e :: rest => e.treeLines d ++ treeLines d rest
end

/-- The files a traversal has logged, name and contents, and whether it ended
by the exception of a directory that cannot be opened. -/
structure Logged where
  files : List (String × String)
  thrown : Bool
  deriving DecidableEq

/-- Sequencing of two stretches of a traversal. -/
def Logged.andThen (a b : Logged) : Logged :=
  if a.thrown then a else ⟨a.files ++ b.files, b.thrown⟩

mutual
/-- The regular files of an entry that the logger writes, with their contents:
those that can be opened, are not ignored files and have an allowed
extension, wherever they are beneath the entry, up to the first directory that
cannot be opened. -/
def Entry.loggedFiles : Entry → Logged
  | .directory _ entries => loggedFiles entries
  | .unreadable _ => ⟨[], true⟩
  | .regular name (some contents) =>
    if name ∈ ignoredFiles ∨ extension name ∉ allowedExtensions then ⟨[], false⟩
    else ⟨[(name, contents)], false⟩
  | .regular _ none => ⟨[], false⟩
  | .other _ => ⟨[], false⟩
/-- The regular files of a tree that the logger writes, in traversal order. -/
def loggedFiles : List Entry → Logged
  | [] => ⟨[], false⟩
  | e :: rest => e.loggedFiles.andThen (loggedFiles rest)
end

mutual
/-- The files the specification expects in the log from this entry: none from
an ignored directory. -/
def Entry.eligibleFiles : Entry → List (String × String)
  | .directory name entries => if name ∈ ignoredFolders then [] else eligibleFiles entries
  | .unreadable _ => []
  | .regular name (some contents) =>
    if name ∈ ignoredFiles ∨ extension name ∉ allowedExtensions then []
    else [(name, contents)]
  | .regular _ none => []
  | .other _ => []
/-- The regular files the specification expects in the log, in traversal order:
not beneath an ignored directory, readable, not an ignored file, with an
allowed extension. -/
def eligibleFiles : List Entry → List (String × String)
  | [] => []
  | e :: rest => e.eligibleFiles ++ eligibleFiles rest
end

/-- The block of one logged file: header line, contents, two line endings. -/
def fileBlock (f : String × String) : String :=
  "File: " ++ quoted f.1 ++ "\n" ++ f.2 ++ "\n\n"

/-- The text the logger's loop writes for a stretch of the iteration. -/
def walkText (w : Walk) : Outcome :=
  ⟨String.join (w.visited.map fun pe => logEntry pe.1 pe.2), w.thrown⟩

/-- The blocks of the files a stretch of the traversal has logged. -/
def loggedText (l : Logged) : Outcome :=
  ⟨String.join (l.files.map fileBlock), l.thrown⟩

/-- The loop can no longer dispatch: the flag is set and `main` is not between
the test of line 187 and the `switch`, or the loop has ended. -/
def stopping (s : MenuState) : Prop :=
  (s.shutdown = true ∧ ∀ c, s.pc ≠ Pc.dispatching c) ∨ s.pc = Pc.afterLoop ∨ s.pc = Pc.exited

/-! ## Auxiliary lemmas -/

theorem takeWhile_append_all {α : Type} (q : α → Bool) (l r : List α)
    (h : ∀ x ∈ l, q x = true) : (l ++ r).takeWhile q = l ++ r.takeWhile q := by
  induction l with
  | nil => rfl
  | cons a l ih =>
    have ha : q a = true := h a (List.mem_cons_self a l)
    have hl : ∀ x ∈ l, q x = true := fun x hx => h x (List.mem_cons_of_mem a hx)
    simp [List.takeWhile_cons, ha, ih hl]

theorem filename_toList (p : String) :
    (filename p).toList = (p.toList.reverse.takeWhile (fun c => c != '/')).reverse := rfl

theorem filename_append (parent name : String) (h : '/' ∉ name.toList) :
    filename (append parent name) = name := by
  have hall : ∀ x ∈ name.toList.reverse, (fun c => c != '/') x = true := by
    intro x hx
    have hx1 : x ∈ name.toList := List.mem_reverse.mp hx
    have : x ≠ '/' := fun e => h (e ▸ hx1)
    simpa using this
  have hhead : ¬ name.toList.head? = some '/' := by
    intro e
    exact h (List.mem_of_mem_head? e)
  unfold append
  rw [if_neg hhead]
  by_cases hf : filename parent = ""
  · rw [if_pos hf]
    have hf1 : parent.toList.reverse.takeWhile (fun c => c != '/') = [] := by
      have := congrArg String.toList hf
      rw [filename_toList] at this
      simpa using this
    apply String.ext
    show ((parent ++ name).toList.reverse.takeWhile (fun c => c != '/')).reverse = name.toList
    have e : (parent ++ name).toList = parent.toList ++ name.toList := rfl
    rw [e, List.reverse_append, takeWhile_append_all _ _ _ hall, hf1]
    simp
  · rw [if_neg hf]
    apply String.ext
    show ((parent ++ "/" ++ name).toList.reverse.takeWhile (fun c => c != '/')).reverse
      = name.toList
    have e : (parent ++ "/" ++ name).toList = parent.toList ++ ('/' :: name.toList) := by
      show (parent.toList ++ ['/']) ++ name.toList = _
      simp
    rw [e, List.reverse_append, List.reverse_cons, List.append_assoc,
      takeWhile_append_all _ _ _ hall]
    simp

theorem split_at_last {α : Type} [DecidableEq α] (a : α) (l : List α) (h : a ∈ l) :
    ∃ rest, l = l.takeWhile (fun c => c != a) ++ a :: rest := by
  induction l with
  | nil => simp at h
  | cons b l ih =>
    by_cases hb : b = a
    · subst hb
      exact ⟨l, by simp [List.takeWhile_cons]⟩
    · have hl : a ∈ l := by
        rcases List.mem_cons.mp h with e | e
        · exact absurd e.symm hb
        · exact e
      obtain ⟨rest, hrest⟩ := ih hl
      refine ⟨rest, ?_⟩
      have hq : (b != a) = true := by simpa using hb
      rw [List.takeWhile_cons, hq]
      simp only [if_true, List.cons_append]
      exact congrArg (List.cons b) hrest

theorem suffix_of_mem_dot (f : List Char) (h : '.' ∈ f) :
    ∃ pre, f = pre ++ '.' :: (f.reverse.takeWhile (fun c => c != '.')).reverse := by
  obtain ⟨rest, hrest⟩ := split_at_last '.' f.reverse (List.mem_reverse.mpr h)
  refine ⟨rest.reverse, ?_⟩
  have := congrArg List.reverse hrest
  simpa using this

theorem hasAllowedExtension_iff_extension (p : String) :
    hasAllowedExtension p = true ↔ (extension p = ".cpp" ∨ extension p = ".h") := by
  simp [hasAllowedExtension, allowedExtensions]

theorem extension_cases (p : String) :
    (extension p = ".cpp" ∨ extension p = ".h") ↔
      ((lastDotSuffix p = ".cpp" ∨ lastDotSuffix p = ".h") ∧ filename p ≠ lastDotSuffix p) := by
  by_cases hdot : '.' ∈ (filename p).toList
  · obtain ⟨pre, hpre⟩ := suffix_of_mem_dot _ hdot
    generalize hs : ('.' :: ((filename p).toList.reverse.takeWhile (fun c => c != '.')).reverse) = s at hpre
    have hl : lastDotSuffix p = String.mk s := by
      unfold lastDotSuffix
      simp only [hdot, if_true]
      rw [hs]
    have he : extension p =
        if (filename p).toList = ['.'] ∨ (filename p).toList = ['.', '.'] then ""
        else if s.length < (filename p).toList.length then String.mk s else "" := by
      unfold extension
      simp only [hdot, true_and]
      rw [hs]
    have hfn : filename p = String.mk (pre ++ s) := String.ext hpre
    rw [hl, he, hfn]
    by_cases h1 : pre ++ s = ['.'] ∨ pre ++ s = ['.', '.']
    · have hs1 : s = ['.'] := by
        rcases h1 with h1 | h1
        · rw [h1] at hpre
          rw [hpre] at hs
          simpa using hs.symm
        · rw [h1] at hpre
          rw [hpre] at hs
          simpa [List.takeWhile] using hs.symm
      subst hs1
      simp only [String.toList]
      rw [if_pos h1]
      constructor
      · intro h
        rcases h with h | h <;> exact absurd h (by decide)
      · intro h
        rcases h.1 with h | h <;> exact absurd h (by decide)
    · simp only [String.toList, h1, if_false]
      cases pre with
      | nil => simp
      | cons c pre =>
        have hlt : s.length < (c :: pre ++ s).length := by simp; omega
        have hne : String.mk (c :: pre ++ s) ≠ String.mk s := by
          intro e
          have := congrArg String.length e
          simp [String.length] at this
          omega
        simp only [hlt, if_true]
        constructor
        · intro h; exact ⟨h, hne⟩
        · intro h; exact h.1
  · have hl : lastDotSuffix p = "" := by
      unfold lastDotSuffix
      simp only [hdot, if_false]
    have he : extension p = "" := by
      unfold extension
      simp only [hdot, false_and, if_false]
      split <;> rfl
    rw [hl, he]
    constructor
    · intro h
      rcases h with h | h <;> exact absurd h (by decide)
    · intro h
      rcases h.1 with h | h <;> exact absurd h (by decide)

theorem validName_iff (name : String) : validName name = true ↔ '/' ∉ name.toList := by
  simp [validName]

theorem append_empty_left (name : String) (h : '/' ∉ name.toList) : append "" name = name := by
  have hhead : ¬ name.toList.head? = some '/' := fun e => h (List.mem_of_mem_head? e)
  unfold append
  rw [if_neg hhead, if_pos (by decide)]
  exact String.empty_append name

theorem filename_self (name : String) (h : '/' ∉ name.toList) : filename name = name := by
  have := filename_append "" name h
  rwa [append_empty_left name h] at this

theorem extension_congr (p q : String) (h : filename p = filename q) :
    extension p = extension q := by
  unfold extension
  rw [h]

theorem extension_append (path name : String) (h : '/' ∉ name.toList) :
    extension (append path name) = extension name :=
  extension_congr _ _ (by rw [filename_append path name h, filename_self name h])

theorem shouldIgnoreFolder_append (path name : String) (h : '/' ∉ name.toList) :
    shouldIgnoreFolder (append path name) = decide (name ∈ ignoredFolders) := by
  unfold shouldIgnoreFolder
  rw [filename_append path name h, Bool.eq_iff_iff]
  simp [ignoredFolders]

theorem shouldIgnoreFile_append (path name : String) (h : '/' ∉ name.toList) :
    shouldIgnoreFile (append path name) = decide (name ∈ ignoredFiles) := by
  unfold shouldIgnoreFile
  rw [filename_append path name h, Bool.eq_iff_iff]
  simp [ignoredFiles]

theorem hasAllowedExtension_append (path name : String) (h : '/' ∉ name.toList) :
    hasAllowedExtension (append path name) = decide (extension name ∈ allowedExtensions) := by
  unfold hasAllowedExtension
  rw [extension_append path name h, Bool.eq_iff_iff]
  simp [allowedExtensions]

theorem join_cons (a : String) (l : List String) : String.join (a :: l) = a ++ String.join l := by
  apply String.ext
  simp [String.data_join]

theorem join_append (l r : List String) :
    String.join (l ++ r) = String.join l ++ String.join r := by
  apply String.ext
  simp [String.data_join]

theorem validNames_cons (e : Entry) (rest : List Entry) :
    validNames (e :: rest) = true ↔ e.validNames = true ∧ validNames rest = true := by
  simp [validNames]

theorem Outcome.skip_andThen (b : Outcome) : Outcome.andThen ⟨"", false⟩ b = b := by
  cases b
  simp [Outcome.andThen]

theorem printEntry_ignored (path : String) (indent : Int) (e : Entry)
    (hv : e.validNames = true) (hi : e.isDirectory ∧ e.name ∈ ignoredFolders) :
    printEntry path indent e = ⟨"", false⟩ := by
  cases e with
  | directory name entries =>
    have hvn : validName name = true ∧ validNames entries = true := by
      simpa [Entry.validNames] using hv
    have hs := shouldIgnoreFolder_append path name ((validName_iff name).mp hvn.1)
    have hm : name ∈ ignoredFolders := hi.2
    simp [printEntry, Entry.name, Entry.isDirectory, hs, hm]
  | unreadable name =>
    have hvn : validName name = true := by simpa [Entry.validNames] using hv
    have hs := shouldIgnoreFolder_append path name ((validName_iff name).mp hvn)
    have hm : name ∈ ignoredFolders := hi.2
    simp [printEntry, Entry.name, Entry.isDirectory, hs, hm]
  | regular _ _ => simp [Entry.isDirectory] at hi
  | other _ => simp [Entry.isDirectory] at hi

mutual
theorem printEntry_pruned : ∀ (path : String) (indent : Int) (e : Entry),
    e.validNames = true → printEntry path indent e = printEntry path indent e.pruned
  | path, indent, .directory name entries, hv => by
    have hv' : validName name = true ∧ validNames entries = true := by
      simpa [Entry.validNames] using hv
    have ih := printDirTree_pruned (append path name) (toInt32 (indent + 2)) entries hv'.2
    simp only [printEntry, Entry.pruned, Entry.name, Entry.isDirectory, Entry.isRegularFile]
    rw [ih]
  | _, _, .unreadable _, _ => rfl
  | _, _, .regular _ _, _ => rfl
  | _, _, .other _, _ => rfl
theorem printDirTree_pruned : ∀ (path : String) (indent : Int) (entries : List Entry),
    validNames entries = true →
    printDirTree path indent entries = printDirTree path indent (pruneIgnored entries)
  | _, _, [], _ => rfl
  | path, indent, e :: rest, hv => by
    have hv' := (validNames_cons e rest).mp hv
    have ihr := printDirTree_pruned path indent rest hv'.2
    by_cases hi : e.isDirectory ∧ e.name ∈ ignoredFolders
    · simp only [printDirTree, pruneIgnored]
      rw [if_pos hi, printEntry_ignored path indent e hv'.1 hi, Outcome.skip_andThen, ihr]
    · have ihe := printEntry_pruned path indent e hv'.1
      simp only [printDirTree, pruneIgnored]
      rw [if_neg hi]
      simp only [printDirTree]
      rw [ihe, ihr]
end

theorem dashes_ofNat (k : Nat) : dashes (k : Int) = String.mk (List.replicate k '-') := by
  simp [dashes]

theorem toInt32_of_range (x : Int) (h0 : 0 ≤ x) (h1 : x ≤ INT_MAX) : toInt32 x = x := by
  unfold INT_MAX at h1
  unfold toInt32
  omega

theorem onlyDirsAndFiles_cons (e : Entry) (rest : List Entry) :
    onlyDirsAndFiles (e :: rest) = true ↔
      e.onlyDirsAndFiles = true ∧ onlyDirsAndFiles rest = true := by
  simp [onlyDirsAndFiles]

theorem nesting_cons (e : Entry) (rest : List Entry) :
    nesting (e :: rest) = max e.nesting (nesting rest) := by
  simp [nesting]

mutual
theorem printEntry_lines_at : ∀ (path : String) (n d : Nat) (e : Entry),
    e.validNames = true → e.onlyDirsAndFiles = true →
    ((n + 2 * (d + e.nesting) : Nat) : Int) ≤ INT_MAX →
    printEntry path ((n + 2 * d : Nat) : Int) e
      = ⟨String.join ((e.treeLines d).map (TreeLine.text n)), false⟩
  | path, n, d, .directory name entries, hv, ho, hb => by
    have hv' : validName name = true ∧ validNames entries = true := by
      simpa [Entry.validNames] using hv
    have ho' : onlyDirsAndFiles entries = true := by
      simpa [Entry.onlyDirsAndFiles] using ho
    have hname := (validName_iff name).mp hv'.1
    simp only [printEntry, Entry.name, Entry.isDirectory, Entry.isRegularFile,
      Entry.treeLines, shouldIgnoreFolder_append path name hname, Bool.true_and,
      Bool.false_and, decide_eq_true_eq]
    by_cases hm : name ∈ ignoredFolders
    · simp [hm, String.join]
    · have hn : (Entry.directory name entries).nesting = 1 + nesting entries := by
        simp [Entry.nesting, hm]
      rw [hn] at hb
      have hb' : ((n + 2 * (d + 1 + nesting entries) : Nat) : Int) ≤ INT_MAX := by
        have : n + 2 * (d + 1 + nesting entries) = n + 2 * (d + (1 + nesting entries)) := by
          omega
        rw [this]
        exact hb
      have ih := printDirTree_lines_at (append path name) n (d + 1) entries hv'.2 ho' hb'
      have hcast : toInt32 (((n + 2 * d : Nat) : Int) + 2) = ((n + 2 * (d + 1) : Nat) : Int) := by
        have e1 : ((n + 2 * d : Nat) : Int) + 2 = ((n + 2 * (d + 1) : Nat) : Int) := by
          push_cast
          ring
        rw [e1]
        apply toInt32_of_range
        · exact Int.ofNat_nonneg _
        · refine le_trans ?_ hb'
          exact_mod_cast (by omega : n + 2 * (d + 1) ≤ n + 2 * (d + 1 + nesting entries))
      simp only [hm, if_false, List.map_cons, join_cons, TreeLine.text, if_true, hcast, ih,
        dashes_ofNat, filename_append path name hname, String.append_assoc, Bool.false_eq_true,
        Outcome.andThen]
  | path, n, d, .regular name contents, hv, _, _ => by
    have hname := (validName_iff name).mp (by simpa [Entry.validNames] using hv)
    simp only [printEntry, Entry.name, Entry.isDirectory, Entry.isRegularFile,
      Entry.treeLines, shouldIgnoreFile_append path name hname,
      hasAllowedExtension_append path name hname, Bool.true_and, Bool.false_and]
    by_cases hm : name ∈ ignoredFiles ∨ extension name ∉ allowedExtensions
    · have hc : (decide (name ∈ ignoredFiles) || !decide (extension name ∈ allowedExtensions))
          = true := by
        rcases hm with h | h <;> simp [h]
      simp [hm, hc, String.join]
    · have hc : ¬ (decide (name ∈ ignoredFiles) || !decide (extension name ∈ allowedExtensions))
          = true := by
        intro h
        apply hm
        simpa using h
      simp only [hm, hc, if_false, List.map_cons, List.map_nil, join_cons, TreeLine.text,
        dashes_ofNat, filename_append path name hname, String.append_assoc,
        Bool.false_eq_true]
      simp [String.join]
  | _, _, _, .unreadable _, _, ho, _ => by simp [Entry.onlyDirsAndFiles] at ho
  | _, _, _, .other _, _, ho, _ => by simp [Entry.onlyDirsAndFiles] at ho
theorem printDirTree_lines_at : ∀ (path : String) (n d : Nat) (entries : List Entry),
    validNames entries = true → onlyDirsAndFiles entries = true →
    ((n + 2 * (d + nesting entries) : Nat) : Int) ≤ INT_MAX →
    printDirTree path ((n + 2 * d : Nat) : Int) entries
      = ⟨String.join ((treeLines d entries).map (TreeLine.text n)), false⟩
  | _, _, _, [], _, _, _ => rfl
  | path, n, d, e :: rest, hv, ho, hb => by
    have hv' := (validNames_cons e rest).mp hv
    have ho' := (onlyDirsAndFiles_cons e rest).mp ho
    rw [nesting_cons] at hb
    have hb1 : ((n + 2 * (d + e.nesting) : Nat) : Int) ≤ INT_MAX := by
      refine le_trans ?_ hb
      exact_mod_cast (by
        have := le_max_left e.nesting (nesting rest)
        omega : n + 2 * (d + e.nesting) ≤ n + 2 * (d + max e.nesting (nesting rest)))
    have hb2 : ((n + 2 * (d + nesting rest) : Nat) : Int) ≤ INT_MAX := by
      refine le_trans ?_ hb
      exact_mod_cast (by
        have := le_max_right e.nesting (nesting rest)
        omega : n + 2 * (d + nesting rest) ≤ n + 2 * (d + max e.nesting (nesting rest)))
    simp only [printDirTree, treeLines, List.map_append, join_append]
    rw [printEntry_lines_at path n d e hv'.1 ho'.1 hb1,
      printDirTree_lines_at path n d rest hv'.2 ho'.2 hb2]
    simp [Outcome.andThen]
end

theorem logEntry_directory (p name : String) (entries : List Entry) :
    logEntry p (.directory name entries) = "" := by
  simp [logEntry, Entry.isDirectory, Entry.isRegularFile]

theorem logEntry_unreadable (p name : String) : logEntry p (.unreadable name) = "" := by
  simp [logEntry, Entry.isDirectory, Entry.isRegularFile]

theorem logEntry_other (p name : String) : logEntry p (.other name) = "" := by
  simp [logEntry, Entry.isDirectory, Entry.isRegularFile]

theorem logEntry_regular (path name : String) (contents : Option String)
    (h : '/' ∉ name.toList) :
    logEntry (append path name) (.regular name contents)
      = String.join ((Entry.regular name contents).loggedFiles.files.map fileBlock) := by
  simp only [logEntry, Entry.isDirectory, Entry.isRegularFile, Entry.contents,
    shouldIgnoreFile_append path name h, hasAllowedExtension_append path name h,
    filename_append path name h, Bool.true_and, Bool.false_and]
  by_cases hm : name ∈ ignoredFiles ∨ extension name ∉ allowedExtensions
  · have hc : (decide (name ∈ ignoredFiles) || !decide (extension name ∈ allowedExtensions))
        = true := by
      rcases hm with h | h <;> simp [h]
    cases contents <;> simp [hc, hm, Entry.loggedFiles, String.join]
  · have hc : ¬ (decide (name ∈ ignoredFiles) || !decide (extension name ∈ allowedExtensions))
        = true := by
      intro h
      apply hm
      simpa using h
    have ha : extension name ∈ allowedExtensions := by
      by_contra hx
      exact hm (Or.inr hx)
    cases contents with
    | none => simp [hc, ha, Entry.loggedFiles, String.join]
    | some c =>
      have hn : ¬ name ∈ ignoredFiles := fun hx => hm (Or.inl hx)
      simp [hn, ha, Entry.loggedFiles, fileBlock, String.join]

theorem regular_loggedFiles_thrown (name : String) (contents : Option String) :
    (Entry.regular name contents).loggedFiles.thrown = false := by
  cases contents with
  | none => rfl
  | some c =>
    simp only [Entry.loggedFiles]
    split <;> rfl

theorem walkText_andThen (a b : Walk) :
    walkText (a.andThen b) = (walkText a).andThen (walkText b) := by
  unfold Walk.andThen Outcome.andThen walkText
  by_cases h : a.thrown = true
  · simp [h]
  · simp [h, join_append]

theorem loggedText_andThen (a b : Logged) :
    loggedText (a.andThen b) = (loggedText a).andThen (loggedText b) := by
  unfold Logged.andThen Outcome.andThen loggedText
  by_cases h : a.thrown = true
  · simp [h]
  · simp [h, join_append]

mutual
theorem entryAndBelow_blocks : ∀ (path : String) (e : Entry), e.validNames = true →
    walkText (entryAndBelow path e) = loggedText e.loggedFiles
  | path, .directory name entries, hv => by
    have hv' : validName name = true ∧ validNames entries = true := by
      simpa [Entry.validNames] using hv
    have ih := recursiveEntries_blocks (append path name) entries hv'.2
    simp only [entryAndBelow, walkText_andThen, Entry.loggedFiles, ih]
    simp [walkText, logEntry_directory, String.join, Outcome.skip_andThen]
  | path, .unreadable name, _ => by
    simp [entryAndBelow, walkText, loggedText, logEntry_unreadable, Entry.loggedFiles,
      String.join]
  | path, .regular name contents, hv => by
    have hname := (validName_iff name).mp (by simpa [Entry.validNames] using hv)
    simp only [entryAndBelow, walkText, loggedText, List.map_cons, List.map_nil, join_cons,
      logEntry_regular path name contents hname, regular_loggedFiles_thrown]
    simp [String.join]
  | path, .other name, _ => by
    simp [entryAndBelow, walkText, loggedText, logEntry_other, Entry.loggedFiles, String.join]
theorem recursiveEntries_blocks : ∀ (path : String) (entries : List Entry),
    validNames entries = true →
    walkText (recursiveEntries path entries) = loggedText (loggedFiles entries)
  | _, [], _ => rfl
  | path, e :: rest, hv => by
    have hv' := (validNames_cons e rest).mp hv
    simp only [recursiveEntries, loggedFiles, walkText_andThen, loggedText_andThen]
    rw [entryAndBelow_blocks path e hv'.1, recursiveEntries_blocks path rest hv'.2]
end

theorem logFileContents_eq_walkText (path : String) (entries : List Entry) :
    logFileContents path entries = walkText (recursiveEntries path entries) := rfl

theorem run_cons (s : MenuState) (e : Event) (events : List Event) :
    run s (e :: events) = run (step s e) events := rfl

theorem step_stopping (s : MenuState) (e : Event) (h : stopping s) :
    stopping (step s e) ∧
    ∃ extra, (step s e).trace = s.trace ++ extra ∧
      ∀ a ∈ extra, a = Action.signalNotice ∨ a = Action.displayMenu ∨ a = Action.farewell := by
  obtain ⟨sd, sf, pc, tr⟩ := s
  unfold stopping at h ⊢
  cases e with
  | signal =>
    cases pc <;> simp_all [step]
  | advance =>
    cases pc <;> simp_all [step]
  | input typed garbage =>
    cases pc <;> simp_all [step]

theorem run_stopping : ∀ (events : List Event) (s : MenuState), stopping s →
    ∃ extra, (run s events).trace = s.trace ++ extra ∧
      ∀ a ∈ extra, a = Action.signalNotice ∨ a = Action.displayMenu ∨ a = Action.farewell
  | [], s, _ => ⟨[], by simp [run], by simp⟩
  | e :: events, s, h => by
    obtain ⟨h1, x1, hx1, hm1⟩ := step_stopping s e h
    obtain ⟨x2, hx2, hm2⟩ := run_stopping events (step s e) h1
    refine ⟨x1 ++ x2, ?_, ?_⟩
    · rw [run_cons, hx2, hx1, List.append_assoc]
    · intro a ha
      rcases List.mem_append.mp ha with ha | ha
      · exact hm1 a ha
      · exact hm2 a ha

theorem step_signal_stopping (s : MenuState) (h : ∀ c, s.pc ≠ Pc.dispatching c) :
    stopping (step s Event.signal) ∧
    ∃ extra, (step s Event.signal).trace = s.trace ++ extra ∧
      ∀ a ∈ extra, a = Action.signalNotice ∨ a = Action.displayMenu ∨ a = Action.farewell := by
  obtain ⟨sd, sf, pc, tr⟩ := s
  unfold stopping
  cases pc <;> simp_all [step]

theorem extract_integer_ne (v : Int) (h0 : v ≠ 0) (h1 : v ≠ 1) (h2 : v ≠ 2) :
    ∃ c f, extract false (.integer v) = ⟨some c, f⟩ ∧ c ≠ 0 ∧ c ≠ 1 ∧ c ≠ 2 := by
  have hx : extract false (.integer v)
      = if v < INT_MIN then ⟨some INT_MIN, true⟩
        else if INT_MAX < v then ⟨some INT_MAX, true⟩ else ⟨some v, false⟩ := rfl
  rw [hx]
  by_cases ha : v < INT_MIN
  · rw [if_pos ha]
    exact ⟨_, _, rfl, by decide, by decide, by decide⟩
  · rw [if_neg ha]
    by_cases hb : INT_MAX < v
    · rw [if_pos hb]
      exact ⟨_, _, rfl, by decide, by decide, by decide⟩
    · rw [if_neg hb]
      exact ⟨_, _, rfl, h0, h1, h2⟩

theorem switchActions_other (c : Int) (h0 : c ≠ 0) (h1 : c ≠ 1) (h2 : c ≠ 2) :
    switchActions c = [Action.invalidOption] := by
  simp [switchActions, h0, h1, h2]

/-- The part of the menu contract that holds on the code: on a stream in good
state, for every integer input other than 0, 1 and 2, one iteration displays
the menu, prints the invalid-option message and nothing else, leaves the flag
clear and returns to the loop head. -/
theorem iteration_integer_invalid (trace : List Action) (v garbage : Int)
    (h0 : v ≠ 0) (h1 : v ≠ 1) (h2 : v ≠ 2) :
    (iteration ⟨false, false, Pc.loopTest, trace⟩ (Input.integer v) garbage).shutdown = false ∧
    (iteration ⟨false, false, Pc.loopTest, trace⟩ (Input.integer v) garbage).pc = Pc.loopTest ∧
    (iteration ⟨false, false, Pc.loopTest, trace⟩ (Input.integer v) garbage).trace
      = trace ++ [Action.displayMenu, Action.invalidOption] := by
  obtain ⟨c, f, hx, c0, c1, c2⟩ := extract_integer_ne v h0 h1 h2
  simp [iteration, run, step, hx, switchActions_other c c0 c1 c2, c0]

/-! ## Content Logger -/

/-- C1 (the code departs from the claim): for a root that holds `build/c.cpp`,
the loop of `logFileContents` writes a `File:` block for `c.cpp` although
`build` is an ignored directory, while `printDirTree` prints nothing for the
same tree. -/
theorem logFileContents_enters_ignored_folder :
    logFileContents "/r" [.directory "build" [.regular "c.cpp" (some "y")]]
      = ⟨"File: \"c.cpp\"\ny\n\n", false⟩ ∧
    printDirTree "/r" 0 [.directory "build" [.regular "c.cpp" (some "y")]] = ⟨"", false⟩ := by
  decide

/-- C2 (as stated, refuted): for a root containing only `a.cpp` with contents
`x`, the text written is not `File: a.cpp`, line ending, `x`, two line endings,
and it is not 14 characters long. -/
theorem logFileContents_scenario_not_bare_name :
    (logFileContents "/r" [.regular "a.cpp" (some "x")]).text ≠ "File: a.cpp\nx\n\n" ∧
    (logFileContents "/r" [.regular "a.cpp" (some "x")]).text.length ≠ 14 := by
  decide

/-- C2 (amended): the text written by `logFileContents` is, block after block
in traversal order, for every logged file exactly `File: ` followed by the
file's base name as a quoted string, a line ending, the file's contents
verbatim and two line endings, and the traversal ends by an exception exactly
when it meets a directory that cannot be opened; for a root containing only
`a.cpp` with contents `x` (with or without the output folder the logger has
just created) the text is exactly the 17 characters `File: "a.cpp"`, line
ending, `x`, two line endings. -/
theorem logFileContents_blocks (path : String) (entries : List Entry)
    (h : validNames entries = true) :
    logFileContents path entries
      = ⟨String.join ((loggedFiles entries).files.map
          fun f => "File: " ++ quoted f.1 ++ "\n" ++ f.2 ++ "\n\n"),
         (loggedFiles entries).thrown⟩ ∧
    logFileContents "/r" [.regular "a.cpp" (some "x")] = ⟨"File: \"a.cpp\"\nx\n\n", false⟩ ∧
    logFileContents "/r" [.regular "a.cpp" (some "x"),
        .directory "contents" [.regular "contents__2024-05-01__10-00-00.txt" (some "")]]
      = ⟨"File: \"a.cpp\"\nx\n\n", false⟩ ∧
    ("File: \"a.cpp\"\nx\n\n" : String).length = 17 :=
  ⟨recursiveEntries_blocks path entries h, by decide, by decide, by decide⟩

/-- Witness of `logFileContents_blocks` on a tree with a nested directory, an
unreadable file and a file whose name needs escaping. -/
theorem logFileContents_blocks_witness :
    validNames [.directory "src" [.regular "m\"1.h" (some "int x;"), .regular "n.cpp" none],
        .regular "a.cpp" (some "x")] = true ∧
    logFileContents "/r" [.directory "src" [.regular "m\"1.h" (some "int x;"),
        .regular "n.cpp" none], .regular "a.cpp" (some "x")]
      = ⟨"File: \"m\\\"1.h\"\nint x;\n\nFile: \"a.cpp\"\nx\n\n", false⟩ :=
  ⟨by decide,
   (logFileContents_blocks "/r" [.directory "src" [.regular "m\"1.h" (some "int x;"),
        .regular "n.cpp" none], .regular "a.cpp" (some "x")] (by decide)).1.trans (by decide)⟩

/-- C3 (the code departs from the claim): for a root that holds `a.cpp` and
`build/c.cpp`, only `a.cpp` is a readable, allowed regular file outside the
ignored directories, yet `logFileContents` writes two blocks, the second one
for `build/c.cpp`: the blocks are not those of the eligible files. -/
theorem logFileContents_blocks_exceed_eligible :
    eligibleFiles [.regular "a.cpp" (some "x"),
        .directory "build" [.regular "c.cpp" (some "y")]] = [("a.cpp", "x")] ∧
    logFileContents "/r" [.regular "a.cpp" (some "x"),
        .directory "build" [.regular "c.cpp" (some "y")]]
      = ⟨"File: \"a.cpp\"\nx\n\nFile: \"c.cpp\"\ny\n\n", false⟩ ∧
    (logFileContents "/r" [.regular "a.cpp" (some "x"),
        .directory "build" [.regular "c.cpp" (some "y")]]).text
      ≠ String.join ((eligibleFiles [.regular "a.cpp" (some "x"),
          .directory "build" [.regular "c.cpp" (some "y")]]).map fileBlock) := by
  decide

/-! ## Tree Printer -/

/-- C4: for every tree and every starting indent, the iteration of
`printDirTree` for a directory whose name is ignored writes nothing, whatever
lies beneath it, and the whole output equals the output for the tree from which
every ignored directory has been removed together with everything beneath it;
for the root holding `a.cpp`, `b.txt` and `build/c.cpp` the output is the single
file line of `a.cpp`. -/
theorem printDirTree_skips_ignored_folders (path : String) (indent : Int)
    (entries : List Entry) (h : validNames entries = true) :
    (∀ name below, validName name = true → name ∈ ignoredFolders →
      printEntry path indent (.directory name below) = ⟨"", false⟩) ∧
    printDirTree path indent entries = printDirTree path indent (pruneIgnored entries) ∧
    printDirTree "/r" 0 [.regular "a.cpp" (some "x"), .regular "b.txt" (some "t"),
        .directory "build" [.regular "c.cpp" (some "y")]] = ⟨" | \"a.cpp\"\n", false⟩ := by
  refine ⟨?_, printDirTree_pruned path indent entries h, by decide⟩
  intro name below hv hm
  have hs := shouldIgnoreFolder_append path name ((validName_iff name).mp hv)
  simp [printEntry, Entry.name, Entry.isDirectory, hs, hm]

/-- Witness of `printDirTree_skips_ignored_folders`: nested ignored
directories at two levels, one of them holding a directory that cannot be
opened, started at indent 3. -/
theorem printDirTree_skips_ignored_folders_witness :
    validNames [.directory "src" [.directory ".git" [.regular "x.h" none],
        .regular "m.h" none], .directory "build" [.unreadable "d", .regular "c.cpp" none]]
      = true ∧
    printDirTree "/r" 3 [.directory "src" [.directory ".git" [.regular "x.h" none],
        .regular "m.h" none], .directory "build" [.unreadable "d", .regular "c.cpp" none]]
      = printDirTree "/r" 3 [.directory "src" [.regular "m.h" none]] :=
  ⟨by decide,
   (printDirTree_skips_ignored_folders "/r" 3 [.directory "src" [.directory ".git"
        [.regular "x.h" none], .regular "m.h" none],
        .directory "build" [.unreadable "d", .regular "c.cpp" none]] (by decide)).2.1⟩

/-- C5 (as stated, refuted): the line printed for the regular file `a.cpp` at
indent 0 is not the marker followed by the bare base name and a line ending. -/
theorem printDirTree_line_not_bare_name :
    (printDirTree "/r" 0 [.regular "a.cpp" (some "x")]).text ≠ " | a.cpp\n" := by
  decide

/-- C5 (amended): in a tree of regular files and of directories that can be
opened, printed from indent `n` with `n` plus twice the depth of nesting within
the range of `int`, the printer ends normally and its output is the sequence of
the lines of the entries that are not skipped, in enumeration order, the
entries of a directory right after its own line; the line of an entry that
lies `d` directories below the root is exactly `n + 2 * d` dashes, then ` + `
for a directory or ` | ` for a regular file, then the entry's base name as a
quoted string, then a line ending. -/
theorem printDirTree_renders_treeLines (path : String) (n : Nat) (entries : List Entry)
    (hv : validNames entries = true) (ho : onlyDirsAndFiles entries = true)
    (hb : (n : Int) + 2 * (nesting entries : Int) ≤ INT_MAX) :
    printDirTree path (n : Int) entries
      = ⟨String.join ((treeLines 0 entries).map fun l =>
          String.mk (List.replicate (n + 2 * l.depth) '-') ++
            (if l.isDirectory then " + " else " | ") ++ quoted l.name ++ "\n"), false⟩ :=
  printDirTree_lines_at path n 0 entries hv ho (by push_cast; simpa using hb)

/-- Witness of `printDirTree_renders_treeLines`: two levels of nesting from
indent 0. -/
theorem printDirTree_renders_treeLines_witness :
    validNames [.regular "a.cpp" none, .directory "src" [.directory "core"
        [.regular "m.h" none], .regular "b.txt" none]] = true ∧
    onlyDirsAndFiles [.regular "a.cpp" none, .directory "src" [.directory "core"
        [.regular "m.h" none], .regular "b.txt" none]] = true ∧
    ((0 : Nat) : Int) + 2 * (nesting [.regular "a.cpp" none, .directory "src" [.directory "core"
        [.regular "m.h" none], .regular "b.txt" none]] : Int) ≤ INT_MAX ∧
    printDirTree "/r" 0 [.regular "a.cpp" none, .directory "src" [.directory "core"
        [.regular "m.h" none], .regular "b.txt" none]]
      = ⟨" | \"a.cpp\"\n + \"src\"\n-- + \"core\"\n---- | \"m.h\"\n", false⟩ :=
  ⟨by decide, by decide, by decide,
   (printDirTree_renders_treeLines "/r" 0 [.regular "a.cpp" none, .directory "src"
        [.directory "core" [.regular "m.h" none], .regular "b.txt" none]]
        (by decide) (by decide) (by decide)).trans (by decide)⟩

/-- C10 (the code departs from the claim): an entry that is neither a directory
nor a regular file gets its indentation dashes and nothing else.  With a
directory `d` holding only such an entry the output ends in two dashes without
marker, name or line ending; when a regular file follows it, the dashes run into
the next line, which then starts with four dashes instead of two. -/
theorem printDirTree_stray_dashes :
    printDirTree "/r" 0 [.directory "d" [.other "s"]] = ⟨" + \"d\"\n--", false⟩ ∧
    (printDirTree "/r" 0 [.directory "d" [.other "s"]]).text.toList.getLast? = some '-' ∧
    printDirTree "/r" 0 [.directory "d" [.other "s", .regular "m.h" none]]
      = ⟨" + \"d\"\n---- | \"m.h\"\n", false⟩ := by
  decide

/-! ## Filter predicates -/

/-- C6: `shouldIgnoreFolder` is true exactly when the filename of the path, its
final component, is one of `.cache`, `build`, `CMakeFiles`, `contents`, `.git`;
the final component of `parent / name` is `name`, so every ignored name gives
true under every parent path; names that only contain or extend an ignored
name, or differ in case, give false. -/
theorem shouldIgnoreFolder_iff_filename :
    (∀ p : String, shouldIgnoreFolder p = true ↔
      (filename p = ".cache" ∨ filename p = "build" ∨ filename p = "CMakeFiles" ∨
        filename p = "contents" ∨ filename p = ".git")) ∧
    (∀ parent name : String, '/' ∉ name.toList → filename (append parent name) = name) ∧
    (∀ parent name : String, name ∈ ignoredFolders →
      shouldIgnoreFolder (append parent name) = true) ∧
    shouldIgnoreFolder "/r/build2" = false ∧ shouldIgnoreFolder "/r/Build" = false ∧
    shouldIgnoreFolder "/r/mybuild" = false ∧ shouldIgnoreFolder "/r/.gitignore" = false := by
  refine ⟨?_, filename_append, ?_, by decide, by decide, by decide, by decide⟩
  · intro p
    simp [shouldIgnoreFolder, ignoredFolders]
  · intro parent name hm
    have hv : '/' ∉ name.toList := by
      simp only [ignoredFolders, List.mem_cons, List.mem_singleton, List.not_mem_nil,
        or_false] at hm
      rcases hm with h | h | h | h | h <;> subst h <;> decide
    rw [shouldIgnoreFolder_append parent name hv]
    exact decide_eq_true hm

/-- Witness of `shouldIgnoreFolder_iff_filename` at the parent `/home/u/project`
and the name `CMakeFiles`. -/
theorem shouldIgnoreFolder_iff_filename_witness :
    "CMakeFiles" ∈ ignoredFolders ∧
    append "/home/u/project" "CMakeFiles" = "/home/u/project/CMakeFiles" ∧
    shouldIgnoreFolder (append "/home/u/project" "CMakeFiles") = true :=
  ⟨by decide, by decide,
   shouldIgnoreFolder_iff_filename.2.2.1 "/home/u/project" "CMakeFiles" (by decide)⟩

/-- C7 (as stated, refuted): for the path `/r/.cpp` the suffix of the final
component that starts at its last dot is `.cpp`, yet `hasAllowedExtension` is
false. -/
theorem hasAllowedExtension_leading_dot :
    ¬ (hasAllowedExtension "/r/.cpp" = true ↔
        (lastDotSuffix "/r/.cpp" = ".cpp" ∨ lastDotSuffix "/r/.cpp" = ".h")) := by
  decide

/-- C7 (amended): `hasAllowedExtension` is true exactly when `extension()` of
the path is `.cpp` or `.h`, that is, exactly when the suffix of the final
component that starts at its last dot is `.cpp` or `.h` and the final component
is longer than that suffix (a file named just `.cpp` or `.h` has an empty
extension); an empty, differently cased or longer extension gives false. -/
theorem hasAllowedExtension_iff :
    (∀ p : String, hasAllowedExtension p = true ↔
      (extension p = ".cpp" ∨ extension p = ".h")) ∧
    (∀ p : String, hasAllowedExtension p = true ↔
      ((lastDotSuffix p = ".cpp" ∨ lastDotSuffix p = ".h") ∧ filename p ≠ lastDotSuffix p)) ∧
    hasAllowedExtension "/r/a.cpp" = true ∧ hasAllowedExtension "/r/a.h" = true ∧
    hasAllowedExtension "/r/Makefile" = false ∧ hasAllowedExtension "/r/a.CPP" = false ∧
    hasAllowedExtension "/r/a.hpp" = false ∧ hasAllowedExtension "/r/a.cpp.txt" = false :=
  ⟨hasAllowedExtension_iff_extension,
   fun p => (hasAllowedExtension_iff_extension p).trans (extension_cases p),
   by decide, by decide, by decide, by decide, by decide, by decide⟩

/-! ## Menu loop -/

/-- C8 (the code departs from the claim): when the text typed at the prompt is
not an integer, the extraction stores zero in `command`, so the iteration takes
the quit branch: the flag is set, no invalid-option message is printed, and
the loop ends with the farewell instead of displaying the menu again. -/
theorem iteration_nonInteger_quits :
    (∀ garbage, iteration initial Input.nonInteger garbage
      = ⟨true, true, Pc.loopTest, [Action.displayMenu]⟩) ∧
    (∀ garbage, Action.invalidOption ∉ (iteration initial Input.nonInteger garbage).trace) ∧
    (∀ garbage, run (iteration initial Input.nonInteger garbage) [Event.advance, Event.advance]
      = ⟨true, true, Pc.exited, [Action.displayMenu, Action.farewell]⟩) := by
  have hq : ∀ garbage, iteration initial Input.nonInteger garbage
      = ⟨true, true, Pc.loopTest, [Action.displayMenu]⟩ := fun _ => rfl
  refine ⟨hq, ?_, ?_⟩
  · intro garbage
    rw [hq]
    decide
  · intro garbage
    rw [hq]
    decide

/-- C9 (as stated, refuted): the user has typed 2, the test of line 187 has
passed with the flag clear, and the signal is delivered before the `switch`:
the handler sets the flag, and the Content Logger is invoked afterwards. -/
theorem dispatch_after_signal :
    (run initial [Event.advance, Event.advance, Event.input (Input.integer 2) 0, Event.advance,
        Event.signal]) = ⟨true, false, Pc.dispatching 2,
          [Action.displayMenu, Action.signalNotice]⟩ ∧
    (run initial [Event.advance, Event.advance, Event.input (Input.integer 2) 0, Event.advance,
        Event.signal, Event.advance]).trace
      = [Action.displayMenu, Action.signalNotice, Action.logFileContents] := by
  decide

/-- C9 (amended): once the handler has run at any moment other than between the
test of line 187 and the `switch`, whatever events follow, the only actions
ever added to the trace are the handler's notice, the menu and the farewell:
no Tree Printer, no Content Logger.  A flag set at the loop head ends the loop
without running its body, and a flag set while the extraction is pending makes
the loop end whatever value was read. -/
theorem no_dispatch_after_signal (s : MenuState) (events : List Event)
    (h : ∀ command, s.pc ≠ Pc.dispatching command) :
    (∃ extra, (run (step s Event.signal) events).trace = s.trace ++ extra ∧
      ∀ a ∈ extra, a = Action.signalNotice ∨ a = Action.displayMenu ∨ a = Action.farewell) ∧
    (∀ failed trace,
      run ⟨false, failed, Pc.loopTest, trace⟩ [Event.signal, Event.advance, Event.advance]
        = ⟨true, failed, Pc.exited, trace ++ [Action.signalNotice, Action.farewell]⟩) ∧
    (∀ failed trace typed garbage,
      run ⟨false, failed, Pc.reading, trace⟩
          [Event.signal, Event.input typed garbage, Event.advance, Event.advance]
        = ⟨true, (extract failed typed).failed, Pc.exited,
            trace ++ [Action.signalNotice, Action.farewell]⟩) := by
  refine ⟨?_, ?_, ?_⟩
  · obtain ⟨hs, x1, hx1, hm1⟩ := step_signal_stopping s h
    obtain ⟨x2, hx2, hm2⟩ := run_stopping events (step s Event.signal) hs
    refine ⟨x1 ++ x2, ?_, ?_⟩
    · rw [hx2, hx1, List.append_assoc]
    · intro a ha
      rcases List.mem_append.mp ha with ha | ha
      · exact hm1 a ha
      · exact hm2 a ha
  · intro failed trace
    simp [run, step]
  · intro failed trace typed garbage
    simp [run, step]

/-- Witness of `no_dispatch_after_signal`: the signal arrives while the
extraction is pending, then the user types 2. -/
theorem no_dispatch_after_signal_witness :
    (∀ command, (⟨false, false, Pc.reading, [Action.displayMenu]⟩ : MenuState).pc
      ≠ Pc.dispatching command) ∧
    run ⟨false, false, Pc.reading, [Action.displayMenu]⟩
        [Event.signal, Event.input (Input.integer 2) 0, Event.advance, Event.advance]
      = ⟨true, false, Pc.exited,
          [Action.displayMenu, Action.signalNotice, Action.farewell]⟩ :=
  ⟨fun _ => Pc.noConfusion,
   (no_dispatch_after_signal ⟨false, false, Pc.reading, [Action.displayMenu]⟩ []
      (fun _ => Pc.noConfusion)).2.2 false [Action.displayMenu] (Input.integer 2) 0⟩

end TwoCode
